import Mathlib

/-!
Verification of the ew-credentials core against its specification.

The development shallowly embeds the repository's code:

* `DomainHierarchy` (packages/credential-governance/src/domain-hierarchy.ts):
  the two sub-domain discovery strategies (`getSubdomainsUsingResolver` in
  modes ALL and FIRSTLEVEL, and `getSubdomainsUsingRegistry`), together with
  the shared batch log processor `getDomainsFromLogs`.  External chain state
  (registry owner/resolver reads, `DomainReader.readName`, event logs,
  `namehash`/`keccak256`) is a parameter record `HierarchyEnv`; a read that
  can throw in the source is an `Option`-valued field, `none` standing for
  the thrown case that the source catches.
* The issuer-verification engine and the definition codec, whose sources are
  not part of this tree, are modelled from the specification (sections 4.1
  and 4.5); their definitions carry a `Modelled from the spec:` doc comment.
-/

/-- JS `Array.prototype.filter(Boolean)` / `!= ''` test used by the source. -/
def nonEmptyStr (s : String) : Bool := s != ""

/-- Insertion into a JS `Set` (first occurrence wins, insertion order kept). -/
def jsInsert (acc : List String) (s : String) : List String :=
  if s ∈ acc then acc else acc ++ [s]

/-- `new Set(list)` in JS: duplicates removed, first occurrences kept in order. -/
def jsDedup (l : List String) : List String :=
  l.foldl jsInsert []

/-- Boolean no-duplicates test for lists of strings. -/
def nodupB : List String → Bool
  | [] => true
  | x :: xs => !xs.contains x && nodupB xs

theorem mem_jsInsert (acc : List String) (s n : String) :
    n ∈ jsInsert acc s ↔ n ∈ acc ∨ n = s := by
  unfold jsInsert
  by_cases h : s ∈ acc
  · simp only [if_pos h]
    constructor
    · exact fun hn => Or.inl hn
    · rintro (hn | rfl)
      · exact hn
      · exact h
  · simp [if_neg h]

theorem mem_jsDedup_aux (l acc : List String) (n : String) :
    n ∈ l.foldl jsInsert acc ↔ n ∈ acc ∨ n ∈ l := by
  induction l generalizing acc with
  | nil => simp
  | cons x xs ih =>
    simp only [List.foldl_cons, ih, mem_jsInsert, List.mem_cons]
    tauto

theorem mem_jsDedup (l : List String) (n : String) :
    n ∈ jsDedup l ↔ n ∈ l := by
  unfold jsDedup
  rw [mem_jsDedup_aux]
  simp

theorem foldl_jsInsert_of_disjoint (l acc : List String)
    (hd : ∀ x ∈ l, x ∉ acc) (hn : nodupB l = true) :
    l.foldl jsInsert acc = acc ++ l := by
  induction l generalizing acc with
  | nil => simp
  | cons x xs ih =>
    simp only [nodupB, Bool.and_eq_true, Bool.not_eq_true'] at hn
    simp only [List.foldl_cons]
    have hx : x ∉ acc := hd x (List.mem_cons_self x xs)
    rw [jsInsert, if_neg hx]
    rw [ih (acc ++ [x])]
    · simp
    · intro y hy
      simp only [List.mem_append, List.mem_singleton]
      rintro (hya | rfl)
      · exact hd y (List.mem_cons_of_mem x hy) hya
      · have hc : xs.contains y = true := by simpa using hy
        rw [hc] at hn
        exact absurd hn.1 (by simp)
    · exact hn.2

theorem jsDedup_of_nodupB (l : List String) (hn : nodupB l = true) :
    jsDedup l = l := by
  unfold jsDedup
  rw [foldl_jsInsert_of_disjoint l [] (fun x _ => List.not_mem_nil x) hn]
  simp

/-- `ethers` `constants.AddressZero`. -/
def AddressZero : String := "0x0000000000000000000000000000000000000000"

/-- A decoded `NewOwner(node, label, owner)` registry event. -/
structure NewOwnerLog where
  node : String
  label : String
  owner : String
deriving DecidableEq, Repr

/-- The external chain state a `DomainHierarchy` instance queries.  `Option`
valued reads model source reads that may throw (the source catches them). -/
structure HierarchyEnv where
  readName : String → Option String
  resolverName : String → Option String
  ownerOf : String → String
  resolverOf : String → String
  namehash : String → String
  childHash : String → String → String
  domainUpdatedLogs : List String
  textChangedLogs : Option (List String)
  newOwnerLogs : List NewOwnerLog

/-- JS `String.prototype.split('.')` over the character list (structural,
so that the kernel can evaluate it; `''.split('.')` is `['']`). -/
def splitDotChars : List Char → List (List Char)
  | [] => [[]]
  | c :: cs =>
    if c = '.' then [] :: splitDotChars cs
    else
      match splitDotChars cs with
      | [] => [[c]]
      | h :: t => (c :: h) :: t

/-- The leaf label `name.split('.')[0]` used by both strategies. -/
def leafLabel (name : String) : String :=
  ⟨(splitDotChars name.data).headD []⟩

/-- JS `String.prototype.endsWith` (a plain character-suffix test). -/
def jsEndsWith (s post : String) : Bool :=
  post.data.isSuffixOf s.data

/-- `isMetadomain` from `getSubdomainsUsingResolver`: the leaf label
(`name.split('.')[0]`) is one of the reserved labels. -/
def isMetadomain (name : String) : Bool :=
  ["roles", "apps", "orgs"].contains (leafLabel name)

/-- `getDomainsFromLogs`: decode every log, run the per-entry parser, drop
the `''` results and collapse the rest into a `Set`. -/
def getDomainsFromLogs {α : Type} (logs : List α) (parser : α → String) :
    List String :=
  jsDedup ((logs.map parser).filter nonEmptyStr)

/-- `getParser` from the ALL mode of `getSubdomainsUsingResolver`: resolve
the node's name (a throw is caught to `''`), drop meta-domains, keep a name
only when it extends the queried domain as a string suffix and both the
owner and the resolver of the node are non-zero. -/
def getParser (env : HierarchyEnv) (nameReader : String → Option String)
    (domain : String) (node : String) : String :=
  match nameReader node with
  | none => ""
  | some name =>
    if isMetadomain name then ""
    else if jsEndsWith name domain && name != domain then
      if env.ownerOf node == AddressZero || env.resolverOf node == AddressZero
      then "" else name
    else ""

/-- The FIRSTLEVEL parser of `getSubdomainsUsingResolver`: skip zero-owner
logs, hash the child node, read its name and owner (throws caught to `''`),
drop zero-owner and meta-domain children. -/
def firstLevelParser (env : HierarchyEnv) (log : NewOwnerLog) : String :=
  if log.owner == AddressZero then ""
  else
    let nh := env.childHash log.node log.label
    match env.readName nh with
    | none => ""
    | some name =>
      if env.ownerOf nh == AddressZero then ""
      else if isMetadomain name then "" else name

/-- Discovery modes of `getSubdomainsUsingResolver`. -/
inductive ResolverMode where
  | ALL
  | FIRSTLEVEL
deriving DecidableEq, Repr

/-- `getSubdomainsUsingResolver`: throws on an empty domain; in ALL mode
unions the DomainNotifier scan with the optional resolver TextChanged scan;
in FIRSTLEVEL mode scans `NewOwner` logs of the domain's node. -/
def getSubdomainsUsingResolver (env : HierarchyEnv) (domain : String)
    (mode : ResolverMode) : Except String (List String) :=
  if domain = "" then .error "You need to pass a domain name"
  else
    match mode with
    | .ALL =>
      let subDomains :=
        getDomainsFromLogs env.domainUpdatedLogs
          (getParser env env.readName domain)
      let subDomains :=
        match env.textChangedLogs with
        | some logs =>
          jsDedup
            (getDomainsFromLogs logs (getParser env env.resolverName domain)
              ++ subDomains)
        | none => subDomains
      .ok (subDomains.filter nonEmptyStr)
    | .FIRSTLEVEL =>
      .ok
        ((getDomainsFromLogs
          (env.newOwnerLogs.filter (fun l => l.node == env.namehash domain))
          (firstLevelParser env)).filter nonEmptyStr)

/-- The per-log parser of `getSubdomainsUsingRegistry`: identical to the
FIRSTLEVEL parser except that no meta-domain check is made. -/
def registryParser (env : HierarchyEnv) (log : NewOwnerLog) : String :=
  if log.owner == AddressZero then ""
  else
    let nh := env.childHash log.node log.label
    match env.readName nh with
    | none => ""
    | some name =>
      if env.ownerOf nh == AddressZero then "" else name

/-- One `while (queue.length > 0)` pass of `getSubdomainsUsingRegistry`;
`fuel` bounds the number of iterations (the source loop has no bound and
would diverge on cyclic log data), `none` meaning the bound was hit. -/
def registryLoop (env : HierarchyEnv) :
    Nat → List (List String) → List String → Option (List String)
  | _, [], acc => some acc
  | 0, _ :: _, _ => none
  | fuel + 1, currentNodes :: rest, acc =>
    let hashes := currentNodes.map env.namehash
    let logs := env.newOwnerLogs.filter (fun l => hashes.contains l.node)
    let uniqueDomains := getDomainsFromLogs logs (registryParser env)
    let queue :=
      rest ++ (if uniqueDomains.length > 0 then [uniqueDomains] else [])
    let acc :=
      uniqueDomains.foldl
        (fun a d =>
          if ["roles", "apps"].contains (leafLabel d) then a else jsInsert a d)
        acc
    registryLoop env fuel queue acc

/-- `getSubdomainsUsingRegistry`: throws on an empty domain, else runs the
breadth-first registry-log scan seeded with the root, which is added to the
result set before the loop (`subDomains.add(domain)`). -/
def getSubdomainsUsingRegistry (env : HierarchyEnv) (fuel : Nat)
    (domain : String) : Except String (Option (List String)) :=
  if domain = "" then .error "You need to pass a domain name"
  else
    .ok ((registryLoop env fuel [[domain]] [domain]).map
      (fun l => l.filter nonEmptyStr))

/-! Helper soundness lemmas for the discovery parsers. -/

theorem mem_getDomainsFromLogs {α : Type} (logs : List α) (parser : α → String)
    (s : String) :
    s ∈ getDomainsFromLogs logs parser ↔
      s ≠ "" ∧ ∃ l ∈ logs, parser l = s := by
  unfold getDomainsFromLogs
  rw [mem_jsDedup, List.mem_filter]
  simp only [nonEmptyStr, List.mem_map, bne_iff_ne, ne_eq]
  constructor
  · rintro ⟨⟨l, hl, rfl⟩, hne⟩
    exact ⟨hne, l, hl, rfl⟩
  · rintro ⟨hne, l, hl, rfl⟩
    exact ⟨⟨l, hl, rfl⟩, hne⟩

theorem getParser_sound (env : HierarchyEnv) (reader : String → Option String)
    (domain node name : String)
    (h : getParser env reader domain node = name) (hne : name ≠ "") :
    reader node = some name ∧ isMetadomain name = false ∧
      jsEndsWith name domain = true ∧ name ≠ domain ∧
      env.ownerOf node ≠ AddressZero ∧ env.resolverOf node ≠ AddressZero := by
  unfold getParser at h
  split at h
  · exact absurd h.symm hne
  · rename_i n hr
    split at h
    · exact absurd h.symm hne
    · rename_i hm
      split at h
      · rename_i hs
        split at h
        · exact absurd h.symm hne
        · rename_i hz
          subst h
          simp only [Bool.and_eq_true, bne_iff_ne, ne_eq] at hs
          simp only [Bool.or_eq_true, beq_iff_eq, not_or] at hz
          exact ⟨hr, by simpa using hm, hs.1, hs.2, hz.1, hz.2⟩
      · exact absurd h.symm hne

theorem firstLevelParser_sound (env : HierarchyEnv) (log : NewOwnerLog)
    (name : String) (h : firstLevelParser env log = name) (hne : name ≠ "") :
    env.readName (env.childHash log.node log.label) = some name ∧
      env.ownerOf (env.childHash log.node log.label) ≠ AddressZero ∧
      isMetadomain name = false := by
  unfold firstLevelParser at h
  split at h
  · exact absurd h.symm hne
  · simp only at h
    split at h
    · exact absurd h.symm hne
    · rename_i n hr
      split at h
      · exact absurd h.symm hne
      · rename_i hz
        split at h
        · exact absurd h.symm hne
        · rename_i hm
          subst h
          exact ⟨hr, by simpa using hz, by simpa using hm⟩

theorem registryParser_sound (env : HierarchyEnv) (log : NewOwnerLog)
    (name : String) (h : registryParser env log = name) (hne : name ≠ "") :
    env.readName (env.childHash log.node log.label) = some name ∧
      env.ownerOf (env.childHash log.node log.label) ≠ AddressZero := by
  unfold registryParser at h
  split at h
  · exact absurd h.symm hne
  · simp only at h
    split at h
    · exact absurd h.symm hne
    · rename_i n hr
      split at h
      · exact absurd h.symm hne
      · rename_i hz
        subst h
        exact ⟨hr, by simpa using hz⟩

theorem mem_foldl_metaInsert (l acc : List String) (n : String) :
    n ∈ l.foldl
        (fun a d =>
          if ["roles", "apps"].contains (leafLabel d) = true then a
          else jsInsert a d) acc ↔
      n ∈ acc ∨
        (n ∈ l ∧ ["roles", "apps"].contains (leafLabel n) = false) := by
  induction l generalizing acc with
  | nil => simp
  | cons x xs ih =>
    simp only [List.foldl_cons, List.mem_cons]
    by_cases hx : ["roles", "apps"].contains (leafLabel x) = true
    · rw [if_pos hx, ih]
      constructor
      · rintro (ha | hb)
        · exact Or.inl ha
        · exact Or.inr ⟨Or.inr hb.1, hb.2⟩
      · rintro (ha | ⟨rfl | hm, hf⟩)
        · exact Or.inl ha
        · exact absurd hx (by rw [hf]; simp)
        · exact Or.inr ⟨hm, hf⟩
    · rw [if_neg hx, ih, mem_jsInsert]
      constructor
      · rintro ((ha | rfl) | hb)
        · exact Or.inl ha
        · exact Or.inr ⟨Or.inl rfl, by simpa using hx⟩
        · exact Or.inr ⟨Or.inr hb.1, hb.2⟩
      · rintro (ha | ⟨rfl | hm, hf⟩)
        · exact Or.inl (Or.inl ha)
        · exact Or.inl (Or.inr rfl)
        · exact Or.inr ⟨hm, hf⟩

theorem registryLoop_mem (env : HierarchyEnv) (fuel : Nat)
    (queue : List (List String)) (acc out : List String) (n : String)
    (h : registryLoop env fuel queue acc = some out) (hn : n ∈ out) :
    n ∈ acc ∨
      (leafLabel n ∉ ["roles", "apps"] ∧
        ∃ log ∈ env.newOwnerLogs, registryParser env log = n ∧ n ≠ "") := by
  induction fuel generalizing queue acc with
  | zero =>
    match queue with
    | [] =>
      simp only [registryLoop] at h
      cases h
      exact Or.inl hn
    | _ :: _ =>
      simp only [registryLoop] at h
      exact absurd h (by simp)
  | succ fuel ih =>
    match queue with
    | [] =>
      simp only [registryLoop] at h
      cases h
      exact Or.inl hn
    | currentNodes :: rest =>
      simp only [registryLoop] at h
      rcases ih _ _ h with hacc | hlog
      · rw [mem_foldl_metaInsert] at hacc
        rcases hacc with hacc | ⟨hdom, hf⟩
        · exact Or.inl hacc
        · rw [mem_getDomainsFromLogs] at hdom
          obtain ⟨hne, log, hlm, hlp⟩ := hdom
          refine Or.inr ⟨by simpa using hf, log, List.mem_of_mem_filter hlm,
            hlp, hne⟩
      · exact Or.inr hlog

/-- Follows the spec's words for claim C7: a proper subdomain of `domain`
on a dot-label boundary, i.e. `domain` preceded by at least one whole
label.  Written from the spec, for comparison with the code's suffix test. -/
def strictDescendantSpec (name domain : String) : Bool :=
  jsEndsWith name ("." ++ domain)

/-- Environment with a single DomainUpdated log whose node resolves to a
name that string-suffix-matches the queried domain without being its
subdomain. -/
def c7Env : HierarchyEnv where
  readName := fun n => if n = "n0" then some "notiam.ewc" else none
  resolverName := fun _ => none
  ownerOf := fun _ => "0x01"
  resolverOf := fun _ => "0x01"
  namehash := fun n => n
  childHash := fun n l => l ++ "." ++ n
  domainUpdatedLogs := ["n0"]
  textChangedLogs := none
  newOwnerLogs := []

/-- C7 counterexample: querying `iam.ewc` in ALL mode keeps the name
`notiam.ewc`, which merely string-suffix-matches `iam.ewc` and is not a
strict descendant on a dot-label boundary — the code tests `endsWith`
only, so the claim's "not merely a string suffix match" fails. -/
theorem c7_counterexample :
    getSubdomainsUsingResolver c7Env "iam.ewc" ResolverMode.ALL =
      .ok ["notiam.ewc"] ∧
      strictDescendantSpec "notiam.ewc" "iam.ewc" = false := by
  exact ⟨rfl, rfl⟩

/-- C7 (amended): in the resolver-log ALL-mode scan, a matched log entry's
resolved name is kept only if it extends the queried domain as a plain
string suffix (`endsWith`, not necessarily on a dot-label boundary), is
distinct from the queried domain, and the entry's node has a non-zero
current owner. -/
theorem c7_amended (env : HierarchyEnv) (reader : String → Option String)
    (domain node name : String)
    (h : getParser env reader domain node = name) (hne : name ≠ "") :
    jsEndsWith name domain = true ∧ name ≠ domain ∧
      env.ownerOf node ≠ AddressZero := by
  obtain ⟨-, -, h1, h2, h3, -⟩ :=
    getParser_sound env reader domain node name h hne
  exact ⟨h1, h2, h3⟩

/-- Witness for `c7_amended` at the concrete environment `c7Env`. -/
theorem c7_amended_witness :
    jsEndsWith "notiam.ewc" "iam.ewc" = true ∧ "notiam.ewc" ≠ "iam.ewc" ∧
      c7Env.ownerOf "n0" ≠ AddressZero :=
  c7_amended c7Env c7Env.readName "iam.ewc" "n0" "notiam.ewc" rfl (by decide)

/-- Environment for the C8 counterexample: both `NewOwner` logs resolve
successfully, to the same name. -/
def c8Env : HierarchyEnv where
  readName := fun _ => some "a.ewc"
  resolverName := fun _ => none
  ownerOf := fun _ => "0x01"
  resolverOf := fun _ => "0x01"
  namehash := fun n => n
  childHash := fun n l => l ++ "." ++ n
  domainUpdatedLogs := []
  textChangedLogs := none
  newOwnerLogs := []

/-- Two decoded log entries whose per-entry resolution both succeed with
the same domain name. -/
def c8Logs : List NewOwnerLog :=
  [⟨"p", "l1", "0x01"⟩, ⟨"p", "l2", "0x01"⟩]

/-- C8 counterexample: a batch of N = 2 entries with M = 0 individual
failures — both entries resolve, to the same name — returns one entry,
not N − M = 2: the `Set` built by `getDomainsFromLogs` collapses equal
names, so the returned count can be smaller than N − M. -/
theorem c8_counterexample :
    getDomainsFromLogs c8Logs (registryParser c8Env) = ["a.ewc"] ∧
      (c8Logs.map (registryParser c8Env)).filter nonEmptyStr =
        ["a.ewc", "a.ewc"] ∧
      (getDomainsFromLogs c8Logs (registryParser c8Env)).length ≠ 2 := by
  refine ⟨rfl, rfl, by decide⟩

/-- C8 (amended): for every batch and every parser, unconditionally, the
batch processor never throws and returns exactly the distinct names of
the successfully resolved entries — an entry whose individual resolution
fails contributes nothing and never disturbs its siblings — and, when the
successfully resolved names are pairwise distinct, the returned count is
exactly N − M. -/
theorem c8_amended {α : Type} (logs : List α) (parser : α → String) :
    (∀ s, s ∈ getDomainsFromLogs logs parser ↔
      s ≠ "" ∧ ∃ l ∈ logs, parser l = s) ∧
      (nodupB ((logs.map parser).filter nonEmptyStr) = true →
        (getDomainsFromLogs logs parser).length =
          ((logs.map parser).filter nonEmptyStr).length) := by
  refine ⟨fun s => mem_getDomainsFromLogs logs parser s, fun hn => ?_⟩
  unfold getDomainsFromLogs
  rw [jsDedup_of_nodupB _ hn]

/-- Witness for `c8_amended`: the membership clause exercised on the
duplicate-name batch `c8Logs` (where the count clause does not apply),
and the count clause on a batch of three entries of which one fails and
the two successes are distinct, giving exactly 3 − 1 = 2 results. -/
theorem c8_amended_witness :
    ("a.ewc" ∈ getDomainsFromLogs c8Logs (registryParser c8Env) ↔
      "a.ewc" ≠ "" ∧ ∃ l ∈ c8Logs, registryParser c8Env l = "a.ewc") ∧
      (getDomainsFromLogs (["x", "", "y"] : List String) id).length =
        (((["x", "", "y"] : List String).map id).filter nonEmptyStr).length :=
  ⟨(c8_amended c8Logs (registryParser c8Env)).1 "a.ewc",
    (c8_amended (["x", "", "y"] : List String) id).2 (by decide)⟩

/-- Environment for the C1 counterexample: one owned child labelled
`orgs` under the queried root. -/
def c1Env : HierarchyEnv where
  readName := fun n => some n
  resolverName := fun _ => none
  ownerOf := fun _ => "0x01"
  resolverOf := fun _ => "0x01"
  namehash := fun n => n
  childHash := fun n l => l ++ "." ++ n
  domainUpdatedLogs := []
  textChangedLogs := none
  newOwnerLogs := [⟨"ewc", "orgs", "0x01"⟩]

/-- C1 counterexample: `getSubdomainsUsingRegistry('ewc')` returns
`orgs.ewc`, whose leaf label is the reserved meta-domain label `orgs`
(this strategy filters only `roles` and `apps`), and also returns the
queried root itself without any owner check — contradicting the claim
that no returned name is a meta-domain. -/
theorem c1_counterexample :
    getSubdomainsUsingRegistry c1Env 2 "ewc" =
      .ok (some ["ewc", "orgs.ewc"]) ∧
      leafLabel "orgs.ewc" ∈ ["roles", "apps", "orgs"] := by
  exact ⟨rfl, by decide⟩

/-- C1 (amended): every discovered name is non-empty; a name returned by
`getSubdomainsUsingResolver` (either mode) is never a meta-domain and was
read from a node whose current owner is non-zero; a name returned by
`getSubdomainsUsingRegistry` is either the queried root itself (returned
unconditionally, owner unchecked) or was read from a node with non-zero
current owner and has a leaf label other than `roles` and `apps` (`orgs`
is not filtered by the registry strategy). -/
theorem c1_amended :
    (∀ (env : HierarchyEnv) (domain : String) (mode : ResolverMode)
        (out : List String) (name : String),
      getSubdomainsUsingResolver env domain mode = .ok out → name ∈ out →
        name ≠ "" ∧ isMetadomain name = false ∧
          ∃ node,
            (env.readName node = some name ∨
              env.resolverName node = some name) ∧
            env.ownerOf node ≠ AddressZero) ∧
    (∀ (env : HierarchyEnv) (fuel : Nat) (domain : String)
        (out : List String) (name : String),
      getSubdomainsUsingRegistry env fuel domain = .ok (some out) →
        name ∈ out →
        name ≠ "" ∧
          (name = domain ∨
            (leafLabel name ∉ ["roles", "apps"] ∧
              ∃ node, env.readName node = some name ∧
                env.ownerOf node ≠ AddressZero))) := by
  constructor
  · intro env domain mode out name h hmem
    unfold getSubdomainsUsingResolver at h
    by_cases hd : domain = ""
    · rw [if_pos hd] at h; exact absurd h (by simp)
    · rw [if_neg hd] at h
      match mode with
      | ResolverMode.ALL =>
        simp only [Except.ok.injEq] at h
        subst h
        rw [List.mem_filter] at hmem
        obtain ⟨hmem, hne⟩ := hmem
        have hne' : name ≠ "" := by simpa [nonEmptyStr] using hne
        refine ⟨hne', ?_⟩
        match htc : env.textChangedLogs with
        | some logs =>
          rw [htc, mem_jsDedup, List.mem_append] at hmem
          rcases hmem with hmem | hmem
          · rw [mem_getDomainsFromLogs] at hmem
            obtain ⟨-, l, -, hlp⟩ := hmem
            obtain ⟨hr, hm, -, -, ho, -⟩ :=
              getParser_sound env env.resolverName domain l name hlp hne'
            exact ⟨hm, l, Or.inr hr, ho⟩
          · rw [mem_getDomainsFromLogs] at hmem
            obtain ⟨-, l, -, hlp⟩ := hmem
            obtain ⟨hr, hm, -, -, ho, -⟩ :=
              getParser_sound env env.readName domain l name hlp hne'
            exact ⟨hm, l, Or.inl hr, ho⟩
        | none =>
          rw [htc, mem_getDomainsFromLogs] at hmem
          obtain ⟨-, l, -, hlp⟩ := hmem
          obtain ⟨hr, hm, -, -, ho, -⟩ :=
            getParser_sound env env.readName domain l name hlp hne'
          exact ⟨hm, l, Or.inl hr, ho⟩
      | ResolverMode.FIRSTLEVEL =>
        simp only [Except.ok.injEq] at h
        subst h
        rw [List.mem_filter] at hmem
        obtain ⟨hmem, hne⟩ := hmem
        have hne' : name ≠ "" := by simpa [nonEmptyStr] using hne
        rw [mem_getDomainsFromLogs] at hmem
        obtain ⟨-, l, -, hlp⟩ := hmem
        obtain ⟨hr, ho, hm⟩ := firstLevelParser_sound env l name hlp hne'
        exact ⟨hne', hm, env.childHash l.node l.label, Or.inl hr, ho⟩
  · intro env fuel domain out name h hmem
    unfold getSubdomainsUsingRegistry at h
    by_cases hd : domain = ""
    · rw [if_pos hd] at h; exact absurd h (by simp)
    · rw [if_neg hd] at h
      simp only [Except.ok.injEq, Option.map_eq_some'] at h
      obtain ⟨res, hloop, rfl⟩ := h
      rw [List.mem_filter] at hmem
      obtain ⟨hmem, hne⟩ := hmem
      have hne' : name ≠ "" := by simpa [nonEmptyStr] using hne
      refine ⟨hne', ?_⟩
      rcases registryLoop_mem env fuel [[domain]] [domain] res name hloop hmem
        with hacc | ⟨hleaf, log, -, hlp, hlne⟩
      · exact Or.inl (by simpa using hacc)
      · obtain ⟨hr, ho⟩ := registryParser_sound env log name hlp hlne
        exact Or.inr ⟨hleaf, env.childHash log.node log.label, hr, ho⟩

/-- Witness for `c1_amended`, applying the registry conjunct at the
concrete environment `c1Env`. -/
theorem c1_amended_witness :
    "orgs.ewc" ≠ "" ∧
      ("orgs.ewc" = "ewc" ∨
        (leafLabel "orgs.ewc" ∉ ["roles", "apps"] ∧
          ∃ node, c1Env.readName node = some "orgs.ewc" ∧
            c1Env.ownerOf node ≠ AddressZero)) :=
  c1_amended.2 c1Env 2 "ewc" ["ewc", "orgs.ewc"] "orgs.ewc" rfl (by decide)

/-- C10: calling either discovery entry point with the empty (falsy)
domain string fails with the error `You need to pass a domain name`,
whatever the chain environment — so no log query can influence the
outcome. -/
theorem c10_empty_domain_throws :
    ∀ (env : HierarchyEnv) (fuel : Nat) (mode : ResolverMode),
      getSubdomainsUsingResolver env "" mode =
        .error "You need to pass a domain name" ∧
      getSubdomainsUsingRegistry env fuel "" =
        .error "You need to pass a domain name" :=
  fun _ _ _ => ⟨rfl, rfl⟩

/-- A registered sub-domain edge: a parent domain name plus the new child's
label, as decoded from a `NewOwner` event. -/
structure Edge where
  parent : String
  label : String
deriving DecidableEq, Repr

/-- The full name of the child registered by an edge. -/
def childName (e : Edge) : String := e.label ++ "." ++ e.parent

/-- The `NewOwner` log emitted for an edge (owner field non-zero). -/
def edgeLog (ow : String) (e : Edge) : NewOwnerLog :=
  ⟨e.parent, e.label, ow⟩

/-- The non-zero owner used by the tree environments. -/
def treeOwner : String := "0x01"

/-- A chain environment presenting a domain tree with no deletions: node
identifiers are the names themselves (`namehash` is injective so this
loses nothing), every domain is owned, every edge has one `NewOwner` log. -/
def mkTreeEnv (edges : List Edge) : HierarchyEnv where
  readName := fun n => some n
  resolverName := fun _ => none
  ownerOf := fun _ => treeOwner
  resolverOf := fun _ => treeOwner
  namehash := fun n => n
  childHash := fun n l => l ++ "." ++ n
  domainUpdatedLogs := []
  textChangedLogs := none
  newOwnerLogs := edges.map (edgeLog treeOwner)

/-- Level-by-level well-formedness of a domain tree: the edges whose parent
lies on the current frontier are exactly the next level, and the names of
each level are distinct. -/
def goodLevels (edges : List Edge) : List String → List (List Edge) → Bool
  | frontier, [] =>
    edges.filter (fun e => frontier.contains e.parent) == []
  | frontier, lvl :: rest =>
    edges.filter (fun e => frontier.contains e.parent) == lvl &&
    nodupB (lvl.map childName) &&
    goodLevels edges (lvl.map childName) rest

/-- All strict descendants of the root: the child names of every level. -/
def descNames : List (List Edge) → List String
  | [] => []
  | lvl :: rest => lvl.map childName ++ descNames rest

theorem childName_ne_empty (e : Edge) : childName e ≠ "" := by
  unfold childName
  intro h
  have h2 := congrArg String.length h
  rw [String.length_append, String.length_append] at h2
  have hdot : ("." : String).length = 1 := rfl
  have hnil : ("" : String).length = 0 := rfl
  rw [hdot, hnil] at h2
  omega

theorem mem_descNames_ne_empty (levels : List (List Edge)) (n : String)
    (h : n ∈ descNames levels) : n ≠ "" := by
  induction levels with
  | nil => simp [descNames] at h
  | cons lvl rest ih =>
    simp only [descNames, List.mem_append, List.mem_map] at h
    rcases h with ⟨e, -, rfl⟩ | h
    · exact childName_ne_empty e
    · exact ih (by simpa [descNames] using h)

theorem goodLevels_nil_frontier (edges : List Edge) (levels : List (List Edge))
    (hg : goodLevels edges [] levels = true) : descNames levels = [] := by
  induction levels with
  | nil => rfl
  | cons lvl rest ih =>
    simp only [goodLevels, Bool.and_eq_true, beq_iff_eq] at hg
    obtain ⟨⟨h1, -⟩, h3⟩ := hg
    have hlvl : lvl = [] := by
      rw [← h1]
      apply List.filter_eq_nil_iff.mpr
      intro e _
      simp
    subst hlvl
    simp only [descNames, List.map_nil, List.nil_append]
    exact ih (by simpa using h3)

theorem registryParser_tree (edges : List Edge) (e : Edge) :
    registryParser (mkTreeEnv edges) (edgeLog treeOwner e) = childName e := by
  have h1 : (treeOwner == AddressZero) = false := by decide
  simp [registryParser, edgeLog, mkTreeEnv, childName, h1]

theorem filter_edgeLog_comm (edges : List Edge) (frontier : List String)
    (ow : String) :
    (edges.map (edgeLog ow)).filter (fun l => frontier.contains l.node)
      = (edges.filter (fun e => frontier.contains e.parent)).map
          (edgeLog ow) := by
  induction edges with
  | nil => rfl
  | cons e es ih =>
    simp only [List.map_cons, List.filter_cons]
    have hnode : (edgeLog ow e).node = e.parent := rfl
    rw [hnode]
    by_cases h : frontier.contains e.parent
    · rw [if_pos h, if_pos h, List.map_cons, ih]
    · rw [if_neg h, if_neg h, ih]

theorem tree_filter_logs (edges : List Edge) (frontier : List String) :
    ((mkTreeEnv edges).newOwnerLogs.filter
        (fun l => (frontier.map (mkTreeEnv edges).namehash).contains l.node))
      = (edges.filter (fun e => frontier.contains e.parent)).map
          (edgeLog treeOwner) := by
  have hid : frontier.map (mkTreeEnv edges).namehash = frontier := by
    show frontier.map (fun n => n) = frontier
    simp
  rw [hid]
  exact filter_edgeLog_comm edges frontier treeOwner

theorem tree_uniq_eq (edges : List Edge) (lvl : List Edge)
    (hn : nodupB (lvl.map childName) = true) :
    getDomainsFromLogs (lvl.map (edgeLog treeOwner))
        (registryParser (mkTreeEnv edges)) = lvl.map childName := by
  unfold getDomainsFromLogs
  rw [List.map_map]
  have hmap : lvl.map (registryParser (mkTreeEnv edges) ∘ edgeLog treeOwner)
      = lvl.map childName := by
    apply List.map_congr_left
    intro e _
    exact registryParser_tree edges e
  rw [hmap]
  have hfil : (lvl.map childName).filter nonEmptyStr = lvl.map childName := by
    apply List.filter_eq_self.mpr
    intro a ha
    obtain ⟨e, -, rfl⟩ := List.mem_map.mp ha
    simpa [nonEmptyStr] using childName_ne_empty e
  rw [hfil]
  exact jsDedup_of_nodupB _ hn

theorem registryLoop_tree (edges : List Edge) (levels : List (List Edge)) :
    ∀ (frontier acc : List String),
      goodLevels edges frontier levels = true →
      ∃ out,
        registryLoop (mkTreeEnv edges) (levels.length + 1) [frontier] acc
            = some out ∧
          ∀ n, n ∈ out ↔
            n ∈ acc ∨
              (n ∈ descNames levels ∧
                ["roles", "apps"].contains (leafLabel n) = false) := by
  induction levels with
  | nil =>
    intro frontier acc hg
    simp only [goodLevels, beq_iff_eq] at hg
    refine ⟨acc, ?_, ?_⟩
    · simp only [List.length_nil, registryLoop]
      rw [tree_filter_logs, hg]
      simp only [List.map_nil]
      have : getDomainsFromLogs ([] : List NewOwnerLog)
          (registryParser (mkTreeEnv edges)) = [] := rfl
      rw [this]
      simp only [List.length_nil, gt_iff_lt, Nat.lt_irrefl, if_false,
        List.append_nil, List.foldl_nil]
      rfl
    · intro n
      simp [descNames]
  | cons lvl rest ih =>
    intro frontier acc hg
    simp only [goodLevels, Bool.and_eq_true, beq_iff_eq] at hg
    obtain ⟨⟨h1, h2⟩, h3⟩ := hg
    have hloop1 :
        registryLoop (mkTreeEnv edges) ((lvl :: rest).length + 1) [frontier]
            acc
          = registryLoop (mkTreeEnv edges) (rest.length + 1)
              ([] ++ (if (lvl.map childName).length > 0
                then [lvl.map childName] else []))
              (List.foldl
                (fun a d =>
                  if ["roles", "apps"].contains (leafLabel d) = true then a
                  else jsInsert a d) acc (lvl.map childName)) := by
      simp only [List.length_cons, registryLoop]
      rw [tree_filter_logs, h1, tree_uniq_eq edges lvl h2]
    match hl : lvl with
    | [] =>
      have hrest : descNames rest = [] := by
        apply goodLevels_nil_frontier edges rest
        simpa using h3
      refine ⟨acc, ?_, ?_⟩
      · rw [hloop1]
        simp only [List.map_nil, List.length_nil, gt_iff_lt, Nat.lt_irrefl,
          if_false, List.nil_append, List.foldl_nil]
        rfl
      · intro n
        simp [descNames, hrest]
    | e :: lvl' =>
      obtain ⟨out, hout, hmem⟩ :=
        ih ((e :: lvl').map childName)
          (List.foldl
            (fun a d =>
              if ["roles", "apps"].contains (leafLabel d) = true then a
              else jsInsert a d) acc ((e :: lvl').map childName))
          h3
      refine ⟨out, ?_, ?_⟩
      · rw [hloop1]
        simp only [List.map_cons, List.length_cons, gt_iff_lt,
          Nat.succ_pos, if_true, List.nil_append]
        simpa using hout
      · intro n
        rw [hmem n, mem_foldl_metaInsert]
        simp only [descNames, List.mem_append]
        constructor
        · rintro ((ha | hb) | hc)
          · exact Or.inl ha
          · exact Or.inr ⟨Or.inl hb.1, hb.2⟩
          · exact Or.inr ⟨Or.inr hc.1, hc.2⟩
        · rintro (ha | ⟨hb | hc, hf⟩)
          · exact Or.inl (Or.inl ha)
          · exact Or.inl (Or.inr ⟨hb, hf⟩)
          · exact Or.inr ⟨hc, hf⟩

/-- The payload of a successful `getSubdomainsUsingRegistry` call (`none`
when the call threw or ran out of loop fuel). -/
def regOutput (env : HierarchyEnv) (fuel : Nat) (domain : String) :
    Option (List String) :=
  match getSubdomainsUsingRegistry env fuel domain with
  | .ok r => r
  | .error _ => none

/-- Depth-1 tree with a single owned subdomain. -/
def c2CexEdges : List Edge := [⟨"ewc", "sub"⟩]

/-- Depth-1 tree whose only subdomain carries the label `roles`. -/
def c2CexEdgesB : List Edge := [⟨"ewc", "roles"⟩]

/-- C2 counterexample: on a depth-1 tree with no deletions the registry
strategy (a) returns the queried root `ewc` itself, which is not a strict
descendant, and (b) omits the owned strict descendant `roles.ewc` because
its leaf label is filtered — so the result is not exactly the set of
currently-owned strict descendants. -/
theorem c2_counterexample :
    (getSubdomainsUsingRegistry (mkTreeEnv c2CexEdges) 2 "ewc" =
        .ok (some ["ewc", "sub.ewc"]) ∧
      "ewc" ∉ descNames [c2CexEdges]) ∧
    (getSubdomainsUsingRegistry (mkTreeEnv c2CexEdgesB) 2 "ewc" =
        .ok (some ["ewc"]) ∧
      "roles.ewc" ∈ descNames [c2CexEdgesB]) := by
  exact ⟨⟨rfl, by decide⟩, ⟨rfl, by decide⟩⟩

/-- C2 (amended): for every domain tree of depth k reachable from the
queried root in which no domain was deleted, `getSubdomainsUsingRegistry`
(run with fuel k + 1, one loop iteration per level plus the final empty
scan) succeeds and returns exactly the queried root together with every
strict descendant whose leaf label is neither `roles` nor `apps` —
regardless of k. -/
theorem c2_amended (edges : List Edge) (levels : List (List Edge))
    (root : String) (hroot : root ≠ "")
    (hg : goodLevels edges [root] levels = true) :
    (regOutput (mkTreeEnv edges) (levels.length + 1) root).isSome = true ∧
      ∀ n,
        n ∈ (regOutput (mkTreeEnv edges) (levels.length + 1) root).getD []
          ↔ n = root ∨
            (n ∈ descNames levels ∧
              ["roles", "apps"].contains (leafLabel n) = false) := by
  obtain ⟨out, hout, hmem⟩ :=
    registryLoop_tree edges levels [root] [root] hg
  have hreg : getSubdomainsUsingRegistry (mkTreeEnv edges)
      (levels.length + 1) root = .ok (some (out.filter nonEmptyStr)) := by
    unfold getSubdomainsUsingRegistry
    rw [if_neg hroot, hout]
    rfl
  have hro : regOutput (mkTreeEnv edges) (levels.length + 1) root
      = some (out.filter nonEmptyStr) := by
    unfold regOutput
    rw [hreg]
  rw [hro]
  refine ⟨rfl, ?_⟩
  intro n
  simp only [Option.getD_some, List.mem_filter]
  rw [hmem n]
  constructor
  · rintro ⟨hroot' | hdesc, -⟩
    · exact Or.inl (by simpa using hroot')
    · exact Or.inr hdesc
  · rintro (rfl | hdesc)
    · exact ⟨Or.inl (by simp), by simpa [nonEmptyStr] using hroot⟩
    · exact ⟨Or.inr hdesc,
        by simpa [nonEmptyStr] using mem_descNames_ne_empty levels n hdesc.1⟩

/-- Depth-2 chain used to witness `c2_amended`. -/
def c2WitnessEdges : List Edge := [⟨"ewc", "a"⟩, ⟨"a.ewc", "b"⟩]

/-- The level decomposition of `c2WitnessEdges`. -/
def c2WitnessLevels : List (List Edge) := [[⟨"ewc", "a"⟩], [⟨"a.ewc", "b"⟩]]

/-- Witness for `c2_amended` on a concrete depth-2 tree. -/
theorem c2_amended_witness :
    (("ewc" : String) ≠ "" ∧
      goodLevels c2WitnessEdges ["ewc"] c2WitnessLevels = true) ∧
      (regOutput (mkTreeEnv c2WitnessEdges) (c2WitnessLevels.length + 1)
        "ewc").isSome = true :=
  ⟨⟨by decide, by decide⟩,
    (c2_amended c2WitnessEdges c2WitnessLevels "ewc" (by decide)
      (by decide)).1⟩

/-- Modelled from the spec: `IssuerSpec` (section 3) — the issuer of a role
is either a fixed allow-list of DIDs or is delegated to any current holder
of another role.  The engine's source is not part of this tree. -/
inductive IssuerSpec where
  | did (dids : List String)
  | role (roleName : String)
deriving DecidableEq, Repr

/-- Modelled from the spec: the slice of a `RoleDefinition` (section 3)
that issuer verification reads — its issuer specification. -/
structure RoleDef where
  issuer : IssuerSpec
deriving DecidableEq, Repr

/-- Modelled from the spec: a decoded `OffChainClaim` (section 3) — the
claimed role type and the issuer DID asserted inside the credential. -/
structure OffChainClaim where
  claimType : String
  iss : String
deriving DecidableEq, Repr

/-- Modelled from the spec: the engine's external collaborators (sections
4.2, 6) — the Domain Reader (role definition by role name) and the
Credential Resolver (`getCredential(did, namespace)`). -/
structure VerifierEnv where
  registry : String → Option RoleDef
  credentials : String → String → Option OffChainClaim

/-- Role-definition cache: `roleName → RoleDefinition` (section 3). -/
abbrev RoleDefCache := List (String × RoleDef)

/-- Credential cache keyed by `(DID, roleName)`, negative results included
(section 4.5). -/
abbrev CredCache := List ((String × String) × Option OffChainClaim)

/-- Modelled from the spec: step 1 of section 4.5 — look the role up in
the cache, on a miss fetch it from the Domain Reader and populate. -/
def resolveRoleDef (env : VerifierEnv) (rdc : RoleDefCache) (r : String) :
    Option RoleDef × RoleDefCache :=
  match rdc.lookup r with
  | some d => (some d, rdc)
  | none =>
    match env.registry r with
    | some d => (some d, (r, d) :: rdc)
    | none => (none, rdc)

/-- Modelled from the spec: the credential lookup of section 4.5 — consult
the cache, on a miss fetch from the Credential Resolver and populate,
caching a negative result as well. -/
def resolveCredential (env : VerifierEnv) (cc : CredCache)
    (c ρ : String) : Option OffChainClaim × CredCache :=
  match cc.lookup (c, ρ) with
  | some cached => (cached, cc)
  | none => (env.credentials c ρ, ((c, ρ), env.credentials c ρ) :: cc)

/-- Modelled from the spec: the failure taxonomy of verification (section
7); `issuerCredentialUnresolvable` carries the role of the missing link,
per section 4.5's "reported reason pointing at that specific gap" and
section 7's "carrying the specific unmet condition". -/
inductive VerifyErr where
  | roleNotFound (roleName : String)
  | issuerCredentialUnresolvable (roleName : String)
deriving DecidableEq, Repr

/-- Modelled from the spec: the issuer-verification state machine of
section 4.5.  Resolve the role definition (`roleNotFound` when absent);
a `DID` issuer spec is terminal with `verified = allow-list membership`;
a `ROLE` issuer spec resolves the candidate's credential for the required
role (`issuerCredentialUnresolvable` when absent) and recurses on that
credential's own `iss`.  `fuel` bounds the recursion (the spec imposes no
ceiling and notes a cyclic configuration would not terminate); `none`
means the bound was hit. -/
def verifyIssuer (env : VerifierEnv) :
    Nat → String → String → CredCache → RoleDefCache →
      Option (Except VerifyErr (Bool × CredCache × RoleDefCache))
  | 0, _, _, _, _ => none
  | fuel + 1, candidate, roleName, cc, rdc =>
    match (resolveRoleDef env rdc roleName).1 with
    | none => some (.error (.roleNotFound roleName))
    | some rd =>
      match rd.issuer with
      | .did allow =>
        some (.ok (allow.contains candidate, cc,
          (resolveRoleDef env rdc roleName).2))
      | .role required =>
        match (resolveCredential env cc candidate required).1 with
        | none =>
          some (.error (.issuerCredentialUnresolvable required))
        | some claim =>
          verifyIssuer env fuel claim.iss required
            (resolveCredential env cc candidate required).2
            (resolveRoleDef env rdc roleName).2

/-- The observable part of a verification result: the caches dropped. -/
def resultPart
    (res : Option (Except VerifyErr (Bool × CredCache × RoleDefCache))) :
    Option (Except VerifyErr Bool) :=
  match res with
  | none => none
  | some (.error e) => some (.error e)
  | some (.ok (b, _, _)) => some (.ok b)

/-- A role-definition cache agreeing with the registry on every entry. -/
def rdConsistent (env : VerifierEnv) (rdc : RoleDefCache) : Prop :=
  ∀ p ∈ rdc, env.registry p.1 = some p.2

/-- A credential cache agreeing with the credential resolver everywhere. -/
def ccConsistent (env : VerifierEnv) (cc : CredCache) : Prop :=
  ∀ p ∈ cc, env.credentials p.1.1 p.1.2 = p.2

theorem lookup_mem {α β : Type} [BEq α] [LawfulBEq α]
    (l : List (α × β)) (a : α) (b : β) (h : l.lookup a = some b) :
    (a, b) ∈ l := by
  induction l with
  | nil => simp [List.lookup] at h
  | cons p t ih =>
    rw [List.lookup] at h
    by_cases hk : (a == p.1) = true
    · rw [hk] at h
      cases h
      have : a = p.1 := eq_of_beq hk
      subst this
      exact List.mem_cons_self _ _
    · rw [Bool.not_eq_true] at hk
      rw [hk] at h
      exact List.mem_cons_of_mem _ (ih h)

theorem resolveRoleDef_fst (env : VerifierEnv) (rdc : RoleDefCache)
    (r : String) (h : rdConsistent env rdc) :
    (resolveRoleDef env rdc r).1 = env.registry r := by
  unfold resolveRoleDef
  match hl : rdc.lookup r with
  | some d =>
    have hm := lookup_mem rdc r d hl
    exact (h (r, d) hm).symm
  | none =>
    match hr : env.registry r with
    | some d => rfl
    | none => rfl

theorem resolveRoleDef_consistent (env : VerifierEnv) (rdc : RoleDefCache)
    (r : String) (h : rdConsistent env rdc) :
    rdConsistent env (resolveRoleDef env rdc r).2 := by
  unfold resolveRoleDef
  match hl : rdc.lookup r with
  | some d => exact h
  | none =>
    match hr : env.registry r with
    | some d =>
      intro p hp
      rcases List.mem_cons.mp hp with rfl | hp'
      · exact hr
      · exact h p hp'
    | none => exact h

theorem resolveCredential_fst (env : VerifierEnv) (cc : CredCache)
    (c ρ : String) (h : ccConsistent env cc) :
    (resolveCredential env cc c ρ).1 = env.credentials c ρ := by
  unfold resolveCredential
  match hl : cc.lookup (c, ρ) with
  | some cached =>
    have hm := lookup_mem cc (c, ρ) cached hl
    exact (h ((c, ρ), cached) hm).symm
  | none => rfl

theorem resolveCredential_consistent (env : VerifierEnv) (cc : CredCache)
    (c ρ : String) (h : ccConsistent env cc) :
    ccConsistent env (resolveCredential env cc c ρ).2 := by
  unfold resolveCredential
  match hl : cc.lookup (c, ρ) with
  | some cached => exact h
  | none =>
    intro p hp
    rcases List.mem_cons.mp hp with rfl | hp'
    · rfl
    · exact h p hp'

theorem verifyIssuer_succ_notFound (env : VerifierEnv) (fuel : Nat)
    (c r : String) (cc : CredCache) (rdc : RoleDefCache)
    (h : (resolveRoleDef env rdc r).1 = none) :
    verifyIssuer env (fuel + 1) c r cc rdc =
      some (.error (.roleNotFound r)) := by
  simp only [verifyIssuer]
  rw [h]

theorem verifyIssuer_succ_did (env : VerifierEnv) (fuel : Nat)
    (c r : String) (cc : CredCache) (rdc : RoleDefCache)
    (allow : List String)
    (h : (resolveRoleDef env rdc r).1 = some (RoleDef.mk (.did allow))) :
    verifyIssuer env (fuel + 1) c r cc rdc =
      some (.ok (allow.contains c, cc, (resolveRoleDef env rdc r).2)) := by
  simp only [verifyIssuer]
  rw [h]

theorem verifyIssuer_succ_role (env : VerifierEnv) (fuel : Nat)
    (c r : String) (cc : CredCache) (rdc : RoleDefCache)
    (required : String)
    (h : (resolveRoleDef env rdc r).1 = some (RoleDef.mk (.role required))) :
    verifyIssuer env (fuel + 1) c r cc rdc =
      match (resolveCredential env cc c required).1 with
      | none => some (.error (.issuerCredentialUnresolvable required))
      | some claim =>
          verifyIssuer env fuel claim.iss required
            (resolveCredential env cc c required).2
            (resolveRoleDef env rdc r).2 := by
  simp only [verifyIssuer]
  rw [h]

theorem verifyIssuer_cache_irrelevant (env : VerifierEnv) :
    ∀ (fuel : Nat) (c r : String) (cc1 cc2 : CredCache)
      (rdc1 rdc2 : RoleDefCache),
      ccConsistent env cc1 → ccConsistent env cc2 →
      rdConsistent env rdc1 → rdConsistent env rdc2 →
      resultPart (verifyIssuer env fuel c r cc1 rdc1)
        = resultPart (verifyIssuer env fuel c r cc2 rdc2) := by
  intro fuel
  induction fuel with
  | zero => intro c r cc1 cc2 rdc1 rdc2 _ _ _ _; rfl
  | succ fuel ih =>
    intro c r cc1 cc2 rdc1 rdc2 hcc1 hcc2 hrdc1 hrdc2
    have hcon1 := resolveRoleDef_consistent env rdc1 r hrdc1
    have hcon2 := resolveRoleDef_consistent env rdc2 r hrdc2
    have hfst1 := resolveRoleDef_fst env rdc1 r hrdc1
    have hfst2 := resolveRoleDef_fst env rdc2 r hrdc2
    cases hreg : env.registry r with
    | none =>
      rw [verifyIssuer_succ_notFound env fuel c r cc1 rdc1 (by rw [hfst1, hreg]),
        verifyIssuer_succ_notFound env fuel c r cc2 rdc2 (by rw [hfst2, hreg])]
    | some rd =>
      cases rd with
      | mk issuer =>
        cases issuer with
        | did allow =>
          rw [verifyIssuer_succ_did env fuel c r cc1 rdc1 allow
              (by rw [hfst1, hreg]),
            verifyIssuer_succ_did env fuel c r cc2 rdc2 allow
              (by rw [hfst2, hreg])]
          rfl
        | role required =>
          have hccs1 := resolveCredential_consistent env cc1 c required hcc1
          have hccs2 := resolveCredential_consistent env cc2 c required hcc2
          rw [verifyIssuer_succ_role env fuel c r cc1 rdc1 required
              (by rw [hfst1, hreg]),
            verifyIssuer_succ_role env fuel c r cc2 rdc2 required
              (by rw [hfst2, hreg]),
            resolveCredential_fst env cc1 c required hcc1,
            resolveCredential_fst env cc2 c required hcc2]
          cases hcred : env.credentials c required with
          | none => rfl
          | some claim =>
            exact ih claim.iss required _ _ _ _ hccs1 hccs2 hcon1 hcon2

/-- C9: with any credential cache and role-definition cache consistent
with the underlying registry and credential resolver (pre-populated or
empty), `verifyIssuer` produces the same observable result as with empty
caches — the caches are purely an optimization and never change the
verification outcome within a pass. -/
theorem c9_cache_purely_optimization (env : VerifierEnv) (fuel : Nat)
    (c r : String) (cc : CredCache) (rdc : RoleDefCache)
    (hcc : ccConsistent env cc) (hrdc : rdConsistent env rdc) :
    resultPart (verifyIssuer env fuel c r cc rdc)
      = resultPart (verifyIssuer env fuel c r [] []) :=
  verifyIssuer_cache_irrelevant env fuel c r cc [] rdc []
    hcc (by intro p hp; simp at hp) hrdc (by intro p hp; simp at hp)

/-- Registry with one DID-issued role, for the C9 witness. -/
def c9Env : VerifierEnv where
  registry := fun r =>
    if r = "admin" then some ⟨.did ["did:a"]⟩ else none
  credentials := fun _ _ => none

/-- A pre-populated role-definition cache consistent with `c9Env`. -/
def c9Rdc : RoleDefCache := [("admin", ⟨.did ["did:a"]⟩)]

/-- Witness for `c9_cache_purely_optimization` at a concrete registry and
pre-populated cache. -/
theorem c9_witness :
    ccConsistent c9Env [] ∧ rdConsistent c9Env c9Rdc ∧
      resultPart (verifyIssuer c9Env 1 "did:a" "admin" [] c9Rdc)
        = resultPart (verifyIssuer c9Env 1 "did:a" "admin" [] []) :=
  ⟨by unfold ccConsistent; decide, by unfold rdConsistent; decide,
    c9_cache_purely_optimization c9Env 1 "did:a" "admin" [] c9Rdc
      (by unfold ccConsistent; decide) (by unfold rdConsistent; decide)⟩

/-- C4: when the role resolves to a definition whose issuer spec is the
DID allow-list `allow`, verification is terminal: at every recursion
budget the observable result equals membership of the candidate in the
allow-list — true exactly for members — and the result coincides with the
fuel-1 run, i.e. no recursive verification step is needed. -/
theorem c4_did_issuer (env : VerifierEnv) (fuel : Nat) (c r : String)
    (cc : CredCache) (rdc : RoleDefCache) (allow : List String)
    (h : (resolveRoleDef env rdc r).1 = some (RoleDef.mk (.did allow))) :
    resultPart (verifyIssuer env (fuel + 1) c r cc rdc)
        = some (.ok (allow.contains c)) ∧
      (allow.contains c = true ↔ c ∈ allow) ∧
      verifyIssuer env (fuel + 1) c r cc rdc
        = verifyIssuer env 1 c r cc rdc := by
  rw [verifyIssuer_succ_did env fuel c r cc rdc allow h,
    verifyIssuer_succ_did env 0 c r cc rdc allow h]
  exact ⟨rfl, by simp, rfl⟩

/-- Registry in which role `adminRole` is issued by the allow-list
containing exactly the subject `did:S`. -/
def c4Env : VerifierEnv where
  registry := fun r =>
    if r = "adminRole" then some ⟨.did ["did:S"]⟩ else none
  credentials := fun _ _ => none

/-- Witness for `c4_did_issuer`: subject `did:S` with
`issuer.did = [did:S]`. -/
theorem c4_witness :
    resultPart (verifyIssuer c4Env 1 "did:S" "adminRole" [] [])
        = some (.ok ((["did:S"] : List String).contains "did:S")) ∧
      ((["did:S"] : List String).contains "did:S" = true
        ↔ "did:S" ∈ (["did:S"] : List String)) ∧
      verifyIssuer c4Env 1 "did:S" "adminRole" [] []
        = verifyIssuer c4Env 1 "did:S" "adminRole" [] [] :=
  c4_did_issuer c4Env 0 "did:S" "adminRole" [] [] ["did:S"] (by decide)

/-- C5: when role `r2` delegates issuance to holders of role `r1` and the
candidate S holds a resolvable credential for `r1` whose `iss` field is I,
verifying (S, r2) produces the same observable outcome as the recursive
verification of (I, r1); in particular it verifies true iff the recursive
call verifies true. -/
theorem c5_role_delegation (env : VerifierEnv) (fuel : Nat)
    (S r2 r1 I : String) (cc : CredCache) (rdc : RoleDefCache)
    (hcc : ccConsistent env cc) (hrdc : rdConsistent env rdc)
    (hdef : env.registry r2 = some (RoleDef.mk (.role r1)))
    (hcred : env.credentials S r1 = some (OffChainClaim.mk r1 I)) :
    resultPart (verifyIssuer env (fuel + 1) S r2 cc rdc)
        = resultPart (verifyIssuer env fuel I r1 cc rdc) ∧
      (resultPart (verifyIssuer env (fuel + 1) S r2 cc rdc)
          = some (.ok true)
        ↔ resultPart (verifyIssuer env fuel I r1 cc rdc)
          = some (.ok true)) := by
  have h1 : (resolveRoleDef env rdc r2).1 = some (RoleDef.mk (.role r1)) :=
    by rw [resolveRoleDef_fst env rdc r2 hrdc, hdef]
  have heq : resultPart (verifyIssuer env (fuel + 1) S r2 cc rdc)
      = resultPart (verifyIssuer env fuel I r1 cc rdc) := by
    rw [verifyIssuer_succ_role env fuel S r2 cc rdc r1 h1,
      resolveCredential_fst env cc S r1 hcc, hcred]
    exact verifyIssuer_cache_irrelevant env fuel I r1
      (resolveCredential env cc S r1).2 cc (resolveRoleDef env rdc r2).2 rdc
      (resolveCredential_consistent env cc S r1 hcc) hcc
      (resolveRoleDef_consistent env rdc r2 hrdc) hrdc
  exact ⟨heq, by rw [heq]⟩

/-- Registry with role `user` delegated to holders of `manager`, which is
DID-issued; subject `did:S` holds a `manager` credential issued by
`did:I`. -/
def c5Env : VerifierEnv where
  registry := fun r =>
    if r = "user" then some ⟨.role "manager"⟩
    else if r = "manager" then some ⟨.did ["did:I"]⟩ else none
  credentials := fun c ρ =>
    if c = "did:S" ∧ ρ = "manager" then some ⟨"manager", "did:I"⟩ else none

/-- Witness for `c5_role_delegation` at the concrete `c5Env`. -/
theorem c5_witness :
    (resultPart (verifyIssuer c5Env 2 "did:S" "user" [] [])
        = resultPart (verifyIssuer c5Env 1 "did:I" "manager" [] [])) ∧
      (resultPart (verifyIssuer c5Env 2 "did:S" "user" [] [])
          = some (.ok true)
        ↔ resultPart (verifyIssuer c5Env 1 "did:I" "manager" [] [])
          = some (.ok true)) :=
  c5_role_delegation c5Env 1 "did:S" "user" "manager" "did:I" [] []
    (by unfold ccConsistent; decide) (by unfold rdConsistent; decide)
    (by decide) (by decide)

/-- Modelled from the spec: a broken issuer chain (section 4.5's edge-case
policy) — starting from `(c, r)`, each listed link resolves its role to a
ROLE-delegating definition and a resolvable credential naming the next
link's issuer, until the final link, whose required credential of role
`missing` is absent from the credential resolver. -/
def chainMissingB (env : VerifierEnv) :
    String → String → List (String × String) → String → Bool
  | c, r, [], missing =>
    match env.registry r with
    | some rd =>
      match rd.issuer with
      | .role required =>
        required == missing && (env.credentials c required).isNone
      | .did _ => false
    | none => false
  | c, r, (c2, r2) :: rest, missing =>
    match env.registry r with
    | some rd =>
      match rd.issuer with
      | .role required =>
        required == r2 &&
          (match env.credentials c required with
            | some claim => claim.iss == c2 && chainMissingB env c2 r2 rest missing
            | none => false)
      | .did _ => false
    | none => false

/-- C3: along every issuer chain whose required credential is absent at
some link, `verifyIssuer` fails with `issuerCredentialUnresolvable`
carrying exactly the role of the missing link — not a generic failure. -/
theorem c3_broken_chain (env : VerifierEnv) :
    ∀ (links : List (String × String)) (c r missing : String)
      (cc : CredCache) (rdc : RoleDefCache),
      ccConsistent env cc → rdConsistent env rdc →
      chainMissingB env c r links missing = true →
      verifyIssuer env (links.length + 1) c r cc rdc
        = some (.error (.issuerCredentialUnresolvable missing)) := by
  intro links
  induction links with
  | nil =>
    intro c r missing cc rdc hcc hrdc hch
    simp only [chainMissingB] at hch
    split at hch
    · rename_i rd hreg
      split at hch
      · rename_i required hiss
        simp only [Bool.and_eq_true, beq_iff_eq, Option.isNone_iff_eq_none]
          at hch
        obtain ⟨rfl, hnone⟩ := hch
        have hrd : rd = RoleDef.mk (.role required) := by
          cases rd
          simp only at hiss
          rw [hiss]
        subst hrd
        have h1 : (resolveRoleDef env rdc r).1
            = some (RoleDef.mk (.role required)) := by
          rw [resolveRoleDef_fst env rdc r hrdc, hreg]
        rw [List.length_nil, verifyIssuer_succ_role env 0 c r cc rdc
          required h1, resolveCredential_fst env cc c required hcc, hnone]
      · exact absurd hch (by simp)
    · exact absurd hch (by simp)
  | cons head rest ih =>
    obtain ⟨c2, r2⟩ := head
    intro c r missing cc rdc hcc hrdc hch
    simp only [chainMissingB] at hch
    split at hch
    · rename_i rd hreg
      split at hch
      · rename_i required hiss
        simp only [Bool.and_eq_true, beq_iff_eq] at hch
        obtain ⟨rfl, hch⟩ := hch
        split at hch
        · rename_i claim hclaim
          simp only [Bool.and_eq_true, beq_iff_eq] at hch
          obtain ⟨hiss2, hrest⟩ := hch
          have hrd : rd = RoleDef.mk (.role required) := by
            cases rd
            simp only at hiss
            rw [hiss]
          subst hrd
          have h1 : (resolveRoleDef env rdc r).1
              = some (RoleDef.mk (.role required)) := by
            rw [resolveRoleDef_fst env rdc r hrdc, hreg]
          rw [List.length_cons, verifyIssuer_succ_role env (rest.length + 1)
            c r cc rdc required h1,
            resolveCredential_fst env cc c required hcc, hclaim]
          have hres := ih c2 required missing
            (resolveCredential env cc c required).2
            (resolveRoleDef env rdc r).2
            (resolveCredential_consistent env cc c required hcc)
            (resolveRoleDef_consistent env rdc r hrdc) hrest
          rw [← hiss2] at hres
          exact hres
        · exact absurd hch (by simp)
      · exact absurd hch (by simp)
    · exact absurd hch (by simp)

/-- Registry with the chain user → manager → admin in which the claimed
issuer `did:A` of the manager link never obtained an `admin` credential. -/
def c3Env : VerifierEnv where
  registry := fun r =>
    if r = "user" then some ⟨.role "manager"⟩
    else if r = "manager" then some ⟨.role "admin"⟩ else none
  credentials := fun c ρ =>
    if c = "did:S" ∧ ρ = "manager" then some ⟨"manager", "did:A"⟩ else none

/-- Witness for `c3_broken_chain`: the two-link chain through `c3Env`
fails naming the missing link's role `admin`. -/
theorem c3_witness :
    chainMissingB c3Env "did:S" "user" [("did:A", "manager")] "admin"
        = true ∧
      verifyIssuer c3Env 2 "did:S" "user" [] []
        = some (.error (.issuerCredentialUnresolvable "admin")) :=
  ⟨by decide,
    c3_broken_chain c3Env [("did:A", "manager")] "did:S" "user" "admin"
      [] [] (by unfold ccConsistent; decide) (by unfold rdConsistent; decide)
      (by decide)⟩

/-- Modelled from the spec: the extensible precondition tag set (section
3); `ROLE` is the one documented tag. -/
inductive PreconditionType where
  | role
deriving DecidableEq, Repr

/-- Modelled from the spec: an enrolment precondition (section 3). -/
structure Precondition where
  ptype : PreconditionType
  conditions : List String
deriving DecidableEq, Repr

/-- Modelled from the spec: the canonical `RoleDefinition` (section 3). -/
structure RoleDefinition where
  roleName : String
  issuer : IssuerSpec
  revoker : IssuerSpec
  enrolmentPreconditions : List Precondition
  requestorFields : List String
  issuerFields : List String
  metadata : List String
  roleType : String
  version : Nat
deriving DecidableEq, Repr

/-- Modelled from the spec: an organization definition (section 3,
"narrower field set"). -/
structure OrgDefinition where
  orgName : String
deriving DecidableEq, Repr

/-- Modelled from the spec: an application definition (section 3). -/
structure AppDefinition where
  appName : String
deriving DecidableEq, Repr

/-- Modelled from the spec: the canonical in-memory definition model the
codec normalizes both grammars into (section 2). -/
inductive DomainDefinition where
  | role (d : RoleDefinition)
  | org (d : OrgDefinition)
  | app (d : AppDefinition)
deriving DecidableEq, Repr

/-- Modelled from the spec: the two on-chain record grammars are
dispatched on an explicit version discriminator supplied by the resolver
registration (sections 4.1, 9). -/
inductive CodecVersion where
  | legacy
  | v2
deriving DecidableEq, Repr

/-- Modelled from the spec: a raw on-chain record, as a JSON-like tree
(section 4.1's "free-form JSON-like text record" and structured typed
encoding share this shape). -/
inductive Raw where
  | str (s : String)
  | num (n : Nat)
  | list (l : List Raw)

def encodeIssuerSpec : IssuerSpec → Raw
  | .did ds => .list [.str "DID", .list (ds.map .str)]
  | .role r => .list [.str "ROLE", .str r]

def decodeStrs : List Raw → Option (List String)
  | [] => some []
  | .str s :: rest => (decodeStrs rest).map (fun l => s :: l)
  | _ => none

def decodeIssuerSpec : Raw → Option IssuerSpec
  | .list [.str "DID", .list ds] => (decodeStrs ds).map .did
  | .list [.str "ROLE", .str r] => some (.role r)
  | _ => none

def encodePrecondition (p : Precondition) : Raw :=
  match p.ptype with
  | .role => .list [.str "ROLE", .list (p.conditions.map .str)]

def decodePrecondition : Raw → Option Precondition
  | .list [.str "ROLE", .list cs] =>
    (decodeStrs cs).map (fun l => ⟨.role, l⟩)
  | _ => none

def decodePreconditions : List Raw → Option (List Precondition)
  | [] => some []
  | r :: rest =>
    match decodePrecondition r, decodePreconditions rest with
    | some p, some ps => some (p :: ps)
    | _, _ => none

/-- Modelled from the spec: the versioned structured grammar — every field
of the canonical role model appears. -/
def encodeRoleV2 (d : RoleDefinition) : Raw :=
  .list [.str d.roleName, encodeIssuerSpec d.issuer,
    encodeIssuerSpec d.revoker,
    .list (d.enrolmentPreconditions.map encodePrecondition),
    .list (d.requestorFields.map .str),
    .list (d.issuerFields.map .str),
    .list (d.metadata.map .str), .str d.roleType, .num d.version]

def decodeRoleV2 : Raw → Option RoleDefinition
  | .list [.str rn, issRaw, revRaw, .list pres, .list reqs, .list issfs,
      .list metas, .str rt, .num ver] =>
    match decodeIssuerSpec issRaw, decodeIssuerSpec revRaw,
        decodePreconditions pres, decodeStrs reqs, decodeStrs issfs,
        decodeStrs metas with
    | some iss, some rev, some ps, some rq, some ifs, some ms =>
      some ⟨rn, iss, rev, ps, rq, ifs, ms, rt, ver⟩
    | _, _, _, _, _, _ => none
  | _ => none

/-- Modelled from the spec: the legacy free-form grammar — V2-only fields
(the revoker and the issuer fields) are not representable; on decode the
absent optional fields take their defaults (section 4.1, section 4.4's
`UnsupportedField` note). -/
def encodeRoleLegacy (d : RoleDefinition) : Raw :=
  .list [.str d.roleName, encodeIssuerSpec d.issuer,
    .list (d.enrolmentPreconditions.map encodePrecondition),
    .list (d.requestorFields.map .str),
    .list (d.metadata.map .str), .str d.roleType, .num d.version]

def decodeRoleLegacy : Raw → Option RoleDefinition
  | .list [.str rn, issRaw, .list pres, .list reqs, .list metas, .str rt,
      .num ver] =>
    match decodeIssuerSpec issRaw, decodePreconditions pres,
        decodeStrs reqs, decodeStrs metas with
    | some iss, some ps, some rq, some ms =>
      some ⟨rn, iss, .did [], ps, rq, [], ms, rt, ver⟩
    | _, _, _, _ => none
  | _ => none

/-- Modelled from the spec: `encode(definition) → rawRecord` for the
version the caller targets (section 4.1). -/
def encode (d : DomainDefinition) (v : CodecVersion) : Raw :=
  match d, v with
  | .role rd, .v2 => .list [.str "ROLE_DEF", encodeRoleV2 rd]
  | .role rd, .legacy => .list [.str "ROLE_DEF", encodeRoleLegacy rd]
  | .org od, _ => .list [.str "ORG_DEF", .str od.orgName]
  | .app ad, _ => .list [.str "APP_DEF", .str ad.appName]

/-- Modelled from the spec: `decode(rawRecord, detectedVersion)`, failing
with `MalformedDefinition` when the record does not parse under the
detected version's grammar (section 4.1). -/
def decode (raw : Raw) (v : CodecVersion) :
    Except String DomainDefinition :=
  match raw with
  | .list [.str "ROLE_DEF", body] =>
    match v with
    | .v2 =>
      match decodeRoleV2 body with
      | some rd => .ok (.role rd)
      | none => .error "MalformedDefinition"
    | .legacy =>
      match decodeRoleLegacy body with
      | some rd => .ok (.role rd)
      | none => .error "MalformedDefinition"
  | .list [.str "ORG_DEF", .str n] => .ok (.org ⟨n⟩)
  | .list [.str "APP_DEF", .str n] => .ok (.app ⟨n⟩)
  | _ => .error "MalformedDefinition"

/-- Modelled from the spec: validity of a definition for a codec version —
under the legacy grammar the V2-only fields must hold their defaults
(section 4.1's "valid for that version"). -/
def validFor (d : DomainDefinition) (v : CodecVersion) : Bool :=
  match d, v with
  | .role rd, .legacy =>
    rd.revoker == .did [] && rd.issuerFields == ([] : List String)
  | _, _ => true

theorem decodeStrs_encode (ds : List String) :
    decodeStrs (ds.map .str) = some ds := by
  induction ds with
  | nil => rfl
  | cons s rest ih =>
    simp only [List.map_cons, decodeStrs, ih, Option.map_some']

theorem decodeIssuerSpec_encode (i : IssuerSpec) :
    decodeIssuerSpec (encodeIssuerSpec i) = some i := by
  cases i with
  | did ds =>
    simp only [encodeIssuerSpec, decodeIssuerSpec, decodeStrs_encode,
      Option.map_some']
  | role r => rfl

theorem decodePrecondition_encode (p : Precondition) :
    decodePrecondition (encodePrecondition p) = some p := by
  cases p with
  | mk t cs =>
    cases t
    simp only [encodePrecondition, decodePrecondition, decodeStrs_encode,
      Option.map_some']

theorem decodePreconditions_encode (ps : List Precondition) :
    decodePreconditions (ps.map encodePrecondition) = some ps := by
  induction ps with
  | nil => rfl
  | cons p rest ih =>
    simp only [List.map_cons, decodePreconditions,
      decodePrecondition_encode p, ih]

theorem decodeRoleV2_encode (d : RoleDefinition) :
    decodeRoleV2 (encodeRoleV2 d) = some d := by
  cases d
  simp only [encodeRoleV2, decodeRoleV2, decodeIssuerSpec_encode,
    decodePreconditions_encode, decodeStrs_encode]

theorem decodeRoleLegacy_encode (d : RoleDefinition)
    (hrev : d.revoker = .did []) (hifs : d.issuerFields = []) :
    decodeRoleLegacy (encodeRoleLegacy d) = some d := by
  cases d
  simp only at hrev hifs
  subst hrev hifs
  simp only [encodeRoleLegacy, decodeRoleLegacy, decodeIssuerSpec_encode,
    decodePreconditions_encode, decodeStrs_encode]

/-- C6: for every definition valid under a codec version, decoding the
encoding under that same version yields the definition exactly:
`decode(encode(d), v) = ok d`. -/
theorem c6_roundtrip (d : DomainDefinition) (v : CodecVersion)
    (hv : validFor d v = true) :
    decode (encode d v) v = .ok d := by
  cases d with
  | role rd =>
    cases v with
    | v2 =>
      simp only [encode, decode, decodeRoleV2_encode]
    | legacy =>
      simp only [validFor, Bool.and_eq_true, beq_iff_eq] at hv
      simp only [encode, decode, decodeRoleLegacy_encode rd hv.1 hv.2]
  | org od => cases od; cases v <;> rfl
  | app ad => cases ad; cases v <;> rfl

/-- A concrete role definition used to witness the round-trip law. -/
def c6Def : DomainDefinition :=
  .role ⟨"manager", .role "admin", .did ["did:rev"],
    [⟨.role, ["user"]⟩], ["name"], ["level"], ["m"], "org-role", 2⟩

/-- Witness for `c6_roundtrip` on a concrete V2 role definition. -/
theorem c6_roundtrip_witness :
    validFor c6Def CodecVersion.v2 = true ∧
      decode (encode c6Def CodecVersion.v2) CodecVersion.v2 = .ok c6Def :=
  ⟨rfl, c6_roundtrip c6Def CodecVersion.v2 rfl⟩
